import Mathlib

/-!
# Royal Game of Ur — verification of the rules engine

A shallow embedding of the game engine found in
`backend/ur_game/game/{board.py, game.py}` (with the snapshot serializer of
`backend/ur_game/web/main.py`), together with theorems settling the frozen
claims about its specification.

Conventions of the embedding:
* Python objects with mutable fields become immutable Lean structures; a
  mutating method becomes a function returning the updated structure.
* Python exceptions (`IndexError` from `path[i]`, `ValueError` from
  `list.index`) are modelled by `Option`: `none` is a raised exception.
  `Game.make_move`, which raises `ValueError` for rejected moves, returns the
  (unchanged) state paired with an `Except` value.
* `random.randint(0, 1)` draws are passed in explicitly as four `Bool`s.
-/

namespace Ur

/-- The two players (`Player` enum, `components/player.py`). -/
inductive Player where
  | one
  | two
deriving DecidableEq, Repr

/-- `Player.value` in Python: 1 for ONE, 2 for TWO. -/
def Player.value : Player → Nat
  | .one => 1
  | .two => 2

/-- The opposite player (used by `Game.next_turn`). -/
def Player.other : Player → Player
  | .one => .two
  | .two => .one

/-- A physical board position `(row, col)`. -/
abbrev Pos : Type := Nat × Nat

/-- Identity of a piece: its owner and its index (Python `piece_id` is
`idx + 1`, running 1..7 per player). Identity is immutable; the mutable
`position`/`completed` fields of the Python `Piece` live in `Board`. -/
structure PieceId where
  player : Player
  idx : Fin 7
deriving DecidableEq, Repr

/-- Pointwise function update (used to model assignment to a dict entry or
an object field). -/
def updFn {α β : Type} [DecidableEq α] (f : α → β) (a : α) (v : β) : α → β :=
  fun x => if x = a then v else f x

/-- The whole mutable state of `Board`: square occupancy (the `piece` field
of each `Square`), each piece's `position` and `completed` fields, and the
`pieces_in_hand` sets. -/
structure Board where
  occupant : Pos → Option PieceId
  posOf : PieceId → Option Pos
  completed : PieceId → Bool
  inHand : PieceId → Bool

/-- The valid squares, in the order `_initialize_board` creates them:
player 1 start row, player 2 start row, shared middle row, the two end
sections. -/
def boardPositions : List Pos :=
  [(2, 0), (2, 1), (2, 2), (2, 3),
   (0, 0), (0, 1), (0, 2), (0, 3),
   (1, 0), (1, 1), (1, 2), (1, 3), (1, 4), (1, 5), (1, 6), (1, 7),
   (2, 6), (2, 7),
   (0, 6), (0, 7)]

/-- The five rosette squares (`rosette_squares` in `_initialize_board`). -/
def rosettePositions : List Pos :=
  [(2, 0), (0, 0), (1, 3), (2, 6), (0, 6)]

/-- `Square.is_rosette`, fixed at board construction. -/
def isRosette (pos : Pos) : Bool :=
  decide (pos ∈ rosettePositions)

/-- `Board.get_player_path`: the 14-square logical track of a player. -/
def getPlayerPath : Player → List Pos
  | .one =>
    [(2, 3), (2, 2), (2, 1), (2, 0),
     (1, 0), (1, 1), (1, 2), (1, 3), (1, 4), (1, 5), (1, 6), (1, 7),
     (2, 7), (2, 6)]
  | .two =>
    [(0, 3), (0, 2), (0, 1), (0, 0),
     (1, 0), (1, 1), (1, 2), (1, 3), (1, 4), (1, 5), (1, 6), (1, 7),
     (0, 7), (0, 6)]

/-- Python `path.index(pos)`: index of the first occurrence. -/
def pathIndexOf (pl : Player) (pos : Pos) : Nat :=
  (getPlayerPath pl).findIdx (fun x => decide (x = pos))

/-- The freshly constructed board (`Board.__init__`): every square empty,
every piece in hand, no piece completed. -/
def initBoard : Board where
  occupant := fun _ => none
  posOf := fun _ => none
  completed := fun _ => false
  inHand := fun _ => true

/-- The occupancy test at a target square, common to both branches of
`Board.is_valid_move` (the code repeats this block verbatim for the in-hand
and on-board cases): an occupied target is enterable only in the middle row
(`target_pos[0] == 1`), only when held by the opponent, and never on a
rosette. -/
def occCheck (b : Board) (p : PieceId) (targetPos : Pos) : Bool :=
  match b.occupant targetPos with
  | some q =>
    if targetPos.1 = 1 then
      decide (q.player ≠ p.player) && !(isRosette targetPos)
    else
      false
  | none => true

/-- `Board.is_valid_move`. `none` models a raised exception: `IndexError`
from `path[steps - 1]` on an in-hand entry that indexes past the path, or
`ValueError` from `path.index(piece.position)` when the piece's position is
`None` or not on its owner's path (impossible in states reachable through
the API). -/
def isValidMove (b : Board) (p : PieceId) (steps : Nat) : Option Bool :=
  if b.completed p then some false
  else
    let path := getPlayerPath p.player
    if b.inHand p then
      if steps = 0 then some false
      else
        match path[steps - 1]? with
        | none => none
        | some targetPos => some (occCheck b p targetPos)
    else
      match b.posOf p with
      | none => none
      | some pos =>
        if pos ∈ path then
          let newIndex := pathIndexOf p.player pos + steps
          if path.length < newIndex then some false
          else if newIndex = path.length then some true
          else some (occCheck b p (path.getD newIndex (0, 0)))
        else none

/-- `Board.move_piece`. Returns `none` when `is_valid_move` raises; for an
invalid move it returns the board unchanged with `false`, mirroring the
early `return False`. On a valid move it removes the piece from its source
(square or hand), completes it when it reaches index `len(path)`, captures
any piece on the destination back to its owner's hand, and reports whether
the destination is a rosette. -/
def movePiece (b : Board) (p : PieceId) (steps : Nat) : Option (Board × Bool) :=
  match isValidMove b p steps with
  | none => none
  | some false => some (b, false)
  | some true =>
    let path := getPlayerPath p.player
    let b1 : Board :=
      match b.posOf p with
      | some pos => { b with occupant := updFn b.occupant pos none }
      | none => { b with inHand := updFn b.inHand p false }
    let newIndex : Nat :=
      match b.posOf p with
      | none => steps - 1
      | some pos => pathIndexOf p.player pos + steps
    if newIndex = path.length then
      some ({ b1 with completed := updFn b1.completed p true,
                      posOf := updFn b1.posOf p none }, false)
    else
      let newPos := path.getD newIndex (0, 0)
      let b2 : Board :=
        match b1.occupant newPos with
        | some cap =>
          { b1 with posOf := updFn b1.posOf cap none,
                    inHand := updFn b1.inHand cap true }
        | none => b1
      let b3 : Board :=
        { b2 with occupant := updFn b2.occupant newPos (some p),
                  posOf := updFn b2.posOf p (some newPos) }
      some (b3, isRosette newPos)

/-- The destination square a move resolves to, if any: `path[steps - 1]`
for an in-hand entry, `path[current_index + steps]` for an on-board piece
that does not score. Used to state the occupancy-rule claims. -/
def moveTarget (b : Board) (p : PieceId) (steps : Nat) : Option Pos :=
  let path := getPlayerPath p.player
  if b.inHand p then
    if steps = 0 then none else path[steps - 1]?
  else
    match b.posOf p with
    | none => none
    | some pos =>
      if pos ∈ path then
        let newIndex := pathIndexOf p.player pos + steps
        if newIndex < path.length then path[newIndex]? else none
      else none

/-- The result of a successful `move_piece`, for stating claims about the
post-move board (`(b, false)` is a dummy that valid moves never produce
a need for). -/
def movePieceRes (b : Board) (p : PieceId) (steps : Nat) : Board × Bool :=
  (movePiece b p steps).getD (b, false)

/-- A concrete test piece: player ONE's piece with `piece_id = 1`. -/
def p1a : PieceId := ⟨Player.one, 0⟩

/-- A concrete test piece: player TWO's piece with `piece_id = 1`. -/
def p2a : PieceId := ⟨Player.two, 0⟩

/-- A fresh board with player ONE's first piece placed on the last shared
square `(1, 7)` (logical index 11), as the board tests do by assigning
`piece.position`, the square's `piece` field, and removing from hand. -/
def boardShared : Board where
  occupant := updFn (fun _ => none) (1, 7) (some p1a)
  posOf := updFn (fun _ => none) p1a (some (1, 7))
  completed := fun _ => false
  inHand := updFn (fun _ => true) p1a false

/-- A fresh board with player ONE's first piece on the end-row rosette
`(2, 6)` (logical index 13). -/
def boardEndRosette : Board where
  occupant := updFn (fun _ => none) (2, 6) (some p1a)
  posOf := updFn (fun _ => none) p1a (some (2, 6))
  completed := fun _ => false
  inHand := updFn (fun _ => true) p1a false

/-- `Board.pieces[pl]`: the fixed pool of 7 pieces owned by a player. -/
def piecesOf (pl : Player) : List PieceId :=
  (List.finRange 7).map fun i => ⟨pl, i⟩

/-- All 14 pieces of the game. -/
def allPieceIds : List PieceId :=
  piecesOf .one ++ piecesOf .two

/-- How many of the three location buckets {in-hand, on-square, completed}
a piece currently sits in. The partition invariant says this is 1. -/
def locCount (b : Board) (q : PieceId) : Nat :=
  (if b.inHand q then 1 else 0) + (if (b.posOf q).isSome then 1 else 0) +
    (if b.completed q then 1 else 0)

/-- A square's occupant reference, when present, agrees with that piece's
own `position` field. -/
def squareOk (b : Board) (pos : Pos) : Bool :=
  match b.occupant pos with
  | some q => decide (b.posOf q = some pos)
  | none => true

/-- A piece's `position` field, when set, points to a real square whose
occupant reference is that piece. -/
def pieceOccOk (b : Board) (q : PieceId) : Bool :=
  match b.posOf q with
  | some pos => decide (b.occupant pos = some q) && decide (pos ∈ boardPositions)
  | none => true

/-- Well-formedness of a board state: every piece is in exactly one
location bucket, and the square↔piece back-references are consistent.
These are the invariants `Board.__init__` establishes and the game API
maintains. -/
def boardWF (b : Board) : Bool :=
  allPieceIds.all (fun q => decide (locCount b q = 1)) &&
    (boardPositions.all (squareOk b) && allPieceIds.all (pieceOccOk b))

/-- `len(board.pieces_in_hand[pl])`. -/
def inHandCount (b : Board) (pl : Player) : Nat :=
  (piecesOf pl).countP fun q => b.inHand q

/-- The number of a player's pieces currently on a square. -/
def onBoardCount (b : Board) (pl : Player) : Nat :=
  (piecesOf pl).countP fun q => (b.posOf q).isSome

/-- `sum(1 for p in board.pieces[pl] if p.completed)`. -/
def completedCount (b : Board) (pl : Player) : Nat :=
  (piecesOf pl).countP fun q => b.completed q

/-- A fresh board with TWO's first piece on the shared rosette `(1, 3)` and
ONE's first piece three squares behind it at `(1, 0)` (logical index 4). -/
def boardSafe : Board where
  occupant := updFn (updFn (fun _ => none) (1, 3) (some p2a)) (1, 0) (some p1a)
  posOf := updFn (updFn (fun _ => none) p2a (some (1, 3))) p1a (some (1, 0))
  completed := fun _ => false
  inHand := updFn (updFn (fun _ => true) p2a false) p1a false

/-- A fresh board with TWO's first piece on the shared non-rosette square
`(1, 2)` and ONE's first piece two squares behind it at `(1, 0)`. -/
def boardCapture : Board where
  occupant := updFn (updFn (fun _ => none) (1, 2) (some p2a)) (1, 0) (some p1a)
  posOf := updFn (updFn (fun _ => none) p2a (some (1, 2))) p1a (some (1, 0))
  completed := fun _ => false
  inHand := updFn (updFn (fun _ => true) p2a false) p1a false

/-- The failures `Game.make_move` can raise (`ValueError`s in Python), plus
a marker for an exception escaping the board code (unreachable through the
API). Note the code defines no game-over error of any kind. -/
inductive MoveError where
  | notYourPiece
  | illegalMove
  | internalFault
deriving DecidableEq, Repr

/-- The turn controller state (`Game.__init__`). -/
structure Game where
  board : Board
  currentPlayer : Player
  diceResult : Nat
  gameOver : Bool
  winner : Option Player

/-- A new game: fresh board, player ONE to move, dice 0, not over. -/
def initGame : Game where
  board := initBoard
  currentPlayer := .one
  diceResult := 0
  gameOver := false
  winner := none

/-- `Game.roll_dice` with the four `random.randint(0, 1)` draws passed in
explicitly. Stores and returns their sum. The method performs no game-over
check of any kind. -/
def rollDice (g : Game) (d1 d2 d3 d4 : Bool) : Game × Nat :=
  let r := d1.toNat + d2.toNat + d3.toNat + d4.toNat
  ({ g with diceResult := r }, r)

/-- `Game.get_valid_moves`: the current player's pieces movable with the
current dice value — the in-hand loop plus the on-board loop (pieces
neither completed nor in hand); empty when the dice value is 0. -/
def getValidMoves (g : Game) : List PieceId :=
  if g.diceResult = 0 then []
  else
    (piecesOf g.currentPlayer).filter fun q =>
      (g.board.inHand q &&
        decide (isValidMove g.board q g.diceResult = some true)) ||
      (!g.board.completed q && !g.board.inHand q &&
        decide (isValidMove g.board q g.diceResult = some true))

/-- `Game._check_victory` generalised to a board and a player: all 7 of the
player's pieces completed. -/
def allCompleted (b : Board) (pl : Player) : Bool :=
  (piecesOf pl).all fun q => b.completed q

/-- `Game.make_move`. The returned `Game` is the state after the call: the
two `raise ValueError` paths occur before any mutation, so they return the
input state; on success the board is updated and, if the current player has
completed all 7 pieces, the controller flags game over, records the winner
and reports no bonus turn, otherwise it passes `move_piece`'s rosette
signal through unchanged. -/
def makeMove (g : Game) (p : PieceId) : Game × Except MoveError Bool :=
  if p.player ≠ g.currentPlayer then (g, .error .notYourPiece)
  else if p ∉ getValidMoves g then (g, .error .illegalMove)
  else
    match movePiece g.board p g.diceResult with
    | none => (g, .error .internalFault)
    | some (b2, landedOnRosette) =>
      if allCompleted b2 g.currentPlayer then
        ({ g with board := b2, gameOver := true,
                  winner := some g.currentPlayer }, .ok false)
      else
        ({ g with board := b2 }, .ok landedOnRosette)

/-- `Game.next_turn`: no-op once the game is over, otherwise flips the
current player and resets the dice to 0. -/
def nextTurn (g : Game) : Game :=
  if g.gameOver then g
  else { g with currentPlayer := g.currentPlayer.other, diceResult := 0 }

/-- Whether an `Except` result is an error (a raised `ValueError`). -/
def isErrB {ε α : Type} : Except ε α → Bool
  | .error _ => true
  | .ok _ => false

/-- The payload of a successful `make_move` (dummy `false` on error). -/
def okBoolD (e : Except MoveError Bool) : Bool :=
  match e with
  | .ok b => b
  | .error _ => false

/-- A finished game: every piece of player ONE completed, TWO's all still
in hand, ONE recorded as winner, a last dice roll of 3 still stored. -/
def wonBoard : Board where
  occupant := fun _ => none
  posOf := fun _ => none
  completed := fun q => decide (q.player = Player.one)
  inHand := fun q => decide (q.player = Player.two)

/-- The game-over controller state sitting on `wonBoard`. -/
def gWon : Game where
  board := wonBoard
  currentPlayer := .one
  diceResult := 3
  gameOver := true
  winner := some .one

/-- A fresh game whose dice have come up 4: ONE can enter a piece. -/
def gReady : Game :=
  { initGame with diceResult := 4 }

/-- `[[None] * 8 for _ in range(3)]`: the 3×8 all-empty occupant grid the
web serializer starts from. -/
def emptyGrid : List (List (Option Nat)) :=
  List.replicate 3 (List.replicate 8 none)

/-- `board[r][c] = v` on a list-of-lists grid. -/
def setCell (grid : List (List (Option Nat))) (r c : Nat) (v : Option Nat) :
    List (List (Option Nat)) :=
  grid.set r ((grid.getD r []).set c v)

/-- Reading `board[r][c]` back. -/
def getCell (grid : List (List (Option Nat))) (r c : Nat) : Option Nat :=
  (grid.getD r []).getD c none

/-- One iteration of the serializer's fill loop
(`for pos, square in game.board.squares.items(): if square.piece: ...`):
write the occupant's player value into the cell, or leave the grid alone. -/
def fillStep (b : Board) (grid : List (List (Option Nat))) (pos : Pos) :
    List (List (Option Nat)) :=
  match b.occupant pos with
  | some q => setCell grid pos.1 pos.2 (some q.player.value)
  | none => grid

/-- The serializer's occupant grid: fold the fill loop over the squares in
their dict insertion order. -/
def fillBoardGrid (b : Board) : List (List (Option Nat)) :=
  boardPositions.foldl (fillStep b) emptyGrid

/-- The record `serialize_game_state` (web/main.py) produces — the
`snapshot` operation of the spec's external interface. `validMoves` lists
the positions of currently movable on-board pieces (the Python iterates a
set, so its order there is unspecified; we use pool order). -/
structure GameSnapshot where
  currentPlayer : Nat
  diceResult : Nat
  gameOver : Bool
  winner : Option Nat
  boardGrid : List (List (Option Nat))
  p1InHand : Nat
  p2InHand : Nat
  p1Completed : Nat
  p2Completed : Nat
  validMoves : Option (List Pos)

/-- `serialize_game_state(game)`. -/
def serializeGameState (g : Game) : GameSnapshot where
  currentPlayer := g.currentPlayer.value
  diceResult := g.diceResult
  gameOver := g.gameOver
  winner := g.winner.map Player.value
  boardGrid := fillBoardGrid g.board
  p1InHand := inHandCount g.board .one
  p2InHand := inHandCount g.board .two
  p1Completed := completedCount g.board .one
  p2Completed := completedCount g.board .two
  validMoves :=
    if 0 < g.diceResult then
      some ((getValidMoves g).filterMap fun q => g.board.posOf q)
    else none

/-! ## General helper lemmas -/

theorem updFn_eq {α β : Type} [DecidableEq α] (f : α → β) (a : α) (v : β) :
    updFn f a v a = v := by
  simp [updFn]

theorem updFn_ne {α β : Type} [DecidableEq α] (f : α → β) (a : α) (v : β)
    {x : α} (h : x ≠ a) : updFn f a v x = f x := by
  simp [updFn, h]

theorem getD_of_getq {α : Type} {l : List α} {n : Nat} {a : α} (d : α)
    (h : l[n]? = some a) : l.getD n d = a := by
  rw [List.getD_eq_getElem?_getD, h]; rfl

theorem lt_of_getq {α : Type} {l : List α} {n : Nat} {a : α}
    (h : l[n]? = some a) : n < l.length :=
  (List.getElem?_eq_some.mp h).choose

theorem mem_of_getq {α : Type} {l : List α} {n : Nat} {a : α}
    (h : l[n]? = some a) : a ∈ l :=
  List.get?_mem (by rw [List.get?_eq_getElem?]; exact h)

theorem mem_allPieceIds (q : PieceId) : q ∈ allPieceIds := by
  obtain ⟨pl, i⟩ := q
  cases pl <;>
    simp [allPieceIds, piecesOf, List.mem_append, List.mem_map, List.mem_finRange]

theorem path_subset_board (pl : Player) :
    ∀ x ∈ getPlayerPath pl, x ∈ boardPositions := by
  cases pl <;> decide

theorem path_length (pl : Player) : (getPlayerPath pl).length = 14 := by
  cases pl <;> rfl

/-- Unpacking `boardWF` into its three usable components. -/
theorem wf_parts (b : Board) (h : boardWF b = true) :
    (∀ q : PieceId, locCount b q = 1) ∧
      (∀ pos ∈ boardPositions, squareOk b pos = true) ∧
      (∀ q : PieceId, pieceOccOk b q = true) := by
  simp only [boardWF, Bool.and_eq_true, List.all_eq_true, decide_eq_true_eq] at h
  exact ⟨fun q => h.1 q (mem_allPieceIds q),
         fun pos hp => h.2.1 pos hp,
         fun q => h.2.2 q (mem_allPieceIds q)⟩

/-- A piece whose `position` is set occupies that square, and the square is
a real board square. -/
theorem wf_posOf_occ {b : Board} (h : boardWF b = true) {q : PieceId} {pos : Pos}
    (hp : b.posOf q = some pos) :
    b.occupant pos = some q ∧ pos ∈ boardPositions := by
  have := (wf_parts b h).2.2 q
  simp only [pieceOccOk, hp, Bool.and_eq_true, decide_eq_true_eq] at this
  exact this

/-- A square's occupant has its `position` field pointing back at it. -/
theorem wf_occ_posOf {b : Board} (h : boardWF b = true) {pos : Pos} {q : PieceId}
    (hmem : pos ∈ boardPositions) (ho : b.occupant pos = some q) :
    b.posOf q = some pos := by
  have := (wf_parts b h).2.1 pos hmem
  simp only [squareOk, ho, decide_eq_true_eq] at this
  exact this

/-- An in-hand piece has no position and is not completed. -/
theorem wf_inHand_facts {b : Board} (h : boardWF b = true) (q : PieceId)
    (hq : b.inHand q = true) : b.posOf q = none ∧ b.completed q = false := by
  have hl := (wf_parts b h).1 q
  cases hpo : b.posOf q <;> cases hcq : b.completed q <;>
    simp_all [locCount, hq, hpo, hcq]

/-- An on-square piece is neither in hand nor completed. -/
theorem wf_onboard_facts {b : Board} (h : boardWF b = true) (q : PieceId)
    (pos : Pos) (hp : b.posOf q = some pos) :
    b.inHand q = false ∧ b.completed q = false := by
  have hl := (wf_parts b h).1 q
  cases hih : b.inHand q <;> cases hcq : b.completed q <;>
    simp_all [locCount, hp, hih, hcq]

theorem mem_piecesOf (p : PieceId) : p ∈ piecesOf p.player := by
  obtain ⟨pl, i⟩ := p
  simp only [piecesOf, List.mem_map]
  exact ⟨i, List.mem_finRange i, rfl⟩

theorem valid_of_completed {b : Board} {p : PieceId} (h : b.completed p = true)
    (steps : Nat) : isValidMove b p steps = some false := by
  simp [isValidMove, h]

/-- An on-board move that would pass the scoring slot is invalid. -/
theorem valid_of_overshoot {b : Board} {p : PieceId} {pos : Pos} {steps : Nat}
    (hc : b.completed p = false) (hh : b.inHand p = false)
    (hp : b.posOf p = some pos) (hmem : pos ∈ getPlayerPath p.player)
    (hgt : 14 < pathIndexOf p.player pos + steps) :
    isValidMove b p steps = some false := by
  simp only [isValidMove, hc, hh, hp, hmem, path_length, Bool.false_eq_true,
    if_false, if_true, reduceIte]
  rw [if_pos hgt]

/-- An on-board move that lands exactly on the scoring slot is valid,
regardless of anything else. -/
theorem valid_of_exact {b : Board} {p : PieceId} {pos : Pos} {steps : Nat}
    (hc : b.completed p = false) (hh : b.inHand p = false)
    (hp : b.posOf p = some pos) (hmem : pos ∈ getPlayerPath p.player)
    (heq : pathIndexOf p.player pos + steps = 14) :
    isValidMove b p steps = some true := by
  simp only [isValidMove, hc, hh, hp, hmem, path_length, Bool.false_eq_true,
    if_false, if_true, reduceIte]
  rw [if_neg (by omega), if_pos heq]

/-- Injectivity of occupancy: two pieces recorded on the same square are
the same piece. -/
theorem wf_occ_unique {b : Board} (h : boardWF b = true) {q1 q2 : PieceId}
    {pos : Pos} (h1 : b.posOf q1 = some pos) (h2 : b.posOf q2 = some pos) :
    q1 = q2 := by
  have e1 := (wf_posOf_occ h h1).1
  have e2 := (wf_posOf_occ h h2).1
  exact Option.some.inj (e1.symm.trans e2)

/-- Introduction rule for `boardWF`. -/
theorem boardWF_intro (b : Board)
    (h1 : ∀ q : PieceId, locCount b q = 1)
    (h2 : ∀ pos ∈ boardPositions, ∀ q, b.occupant pos = some q →
      b.posOf q = some pos)
    (h3 : ∀ q : PieceId, ∀ pos, b.posOf q = some pos →
      b.occupant pos = some q ∧ pos ∈ boardPositions) :
    boardWF b = true := by
  simp only [boardWF, Bool.and_eq_true, List.all_eq_true, decide_eq_true_eq]
  refine ⟨fun q _ => h1 q, fun pos hp => ?_, fun q _ => ?_⟩
  · unfold squareOk
    cases ho : b.occupant pos with
    | none => rfl
    | some q => simpa using h2 pos hp q ho
  · unfold pieceOccOk
    cases hq : b.posOf q with
    | none => rfl
    | some pos =>
      simp only [Bool.and_eq_true, decide_eq_true_eq]
      exact h3 q pos hq

theorem getD_lt {α : Type} (l : List α) (n : Nat) (d : α) (h : n < l.length) :
    l.getD n d = l[n] := by
  rw [List.getD_eq_getElem?_getD, List.getElem?_eq_getElem h]; rfl

theorem getD_mem {α : Type} {l : List α} {n : Nat} (d : α) (h : n < l.length) :
    l.getD n d ∈ l := by
  rw [getD_lt l n d h]
  exact List.getElem_mem h

/-- Inversion of `is_valid_move` returning `True`. -/
theorem validTrue_cases {b : Board} {p : PieceId} {steps : Nat}
    (hv : isValidMove b p steps = some true) :
    b.completed p = false ∧
    ((b.inHand p = true ∧ steps ≠ 0 ∧
        ∃ t, (getPlayerPath p.player)[steps - 1]? = some t ∧
          occCheck b p t = true) ∨
     (b.inHand p = false ∧
        ∃ pos, b.posOf p = some pos ∧ pos ∈ getPlayerPath p.player ∧
          (pathIndexOf p.player pos + steps = 14 ∨
           (pathIndexOf p.player pos + steps < 14 ∧
            occCheck b p ((getPlayerPath p.player).getD
              (pathIndexOf p.player pos + steps) (0, 0)) = true)))) := by
  unfold isValidMove at hv
  by_cases hc : b.completed p = true
  · simp [hc] at hv
  · have hcf : b.completed p = false := by simpa using hc
    refine ⟨hcf, ?_⟩
    simp only [hcf, Bool.false_eq_true, if_false, reduceIte] at hv
    by_cases hh : b.inHand p = true
    · left
      simp only [hh, if_true, reduceIte] at hv
      by_cases hs : steps = 0
      · simp [hs] at hv
      · simp only [hs, if_false, reduceIte] at hv
        cases hg : (getPlayerPath p.player)[steps - 1]? with
        | none => rw [hg] at hv; cases hv
        | some t =>
          rw [hg] at hv
          exact ⟨hh, hs, t, rfl, Option.some.inj hv⟩
    · right
      have hh' : b.inHand p = false := by simpa using hh
      simp only [hh', Bool.false_eq_true, if_false, reduceIte] at hv
      cases hp : b.posOf p with
      | none => simp [hp] at hv
      | some pos =>
        simp only [hp] at hv
        by_cases hmem : pos ∈ getPlayerPath p.player
        · rw [if_pos hmem] at hv
          refine ⟨hh', pos, rfl, hmem, ?_⟩
          rw [path_length] at hv
          by_cases h14 : pathIndexOf p.player pos + steps = 14
          · exact Or.inl h14
          · by_cases hgt : 14 < pathIndexOf p.player pos + steps
            · rw [if_pos hgt] at hv; cases hv
            · rw [if_neg hgt, if_neg h14] at hv
              exact Or.inr ⟨by omega, Option.some.inj hv⟩
        · rw [if_neg hmem] at hv; cases hv

/-- Counting over a list partitioned pointwise into three buckets. -/
theorem countP_three {α : Type} (f g h : α → Bool) :
    ∀ l : List α,
      (∀ x ∈ l, (if f x then 1 else 0) + (if g x then 1 else 0) +
        (if h x then 1 else 0) = 1) →
      l.countP f + l.countP g + l.countP h = l.length
  | [], _ => rfl
  | x :: l, hx => by
    rw [List.countP_cons, List.countP_cons, List.countP_cons]
    have h1 := hx x (List.mem_cons_self x l)
    have h2 := countP_three f g h l fun y hy => hx y (List.mem_cons_of_mem x hy)
    simp only [List.length_cons]
    omega

/-! ## Grid lemmas for the snapshot serializer -/

theorem setCell_row (grid : List (List (Option Nat))) {r : Nat} (c : Nat)
    (v : Option Nat) (h : r < grid.length) :
    (setCell grid r c v).getD r [] = (grid.getD r []).set c v := by
  rw [setCell, List.getD_eq_getElem?_getD, List.getElem?_set_self h]; rfl

theorem setCell_row_oob (grid : List (List (Option Nat))) {r : Nat} (c : Nat)
    (v : Option Nat) (h : grid.length ≤ r) :
    (setCell grid r c v).getD r [] = grid.getD r [] := by
  rw [setCell, List.getD_eq_getElem?_getD, List.getD_eq_getElem?_getD,
    List.getElem?_eq_none (by simpa using h), List.getElem?_eq_none h]

theorem getD_set_ne {α : Type} (l : List α) {i j : Nat} (a : α) (d : α)
    (h : i ≠ j) : (l.set i a).getD j d = l.getD j d := by
  rw [List.getD_eq_getElem?_getD, List.getD_eq_getElem?_getD,
    List.getElem?_set_ne h]

theorem getCell_setCell_row_ne (grid : List (List (Option Nat)))
    {r r' : Nat} (c c' : Nat) (v : Option Nat) (h : r ≠ r') :
    getCell (setCell grid r' c' v) r c = getCell grid r c := by
  unfold getCell setCell
  rw [getD_set_ne _ _ _ (fun he => h he.symm)]

theorem getCell_setCell_col_ne (grid : List (List (Option Nat)))
    {r r' c c' : Nat} (v : Option Nat) (h : c ≠ c') :
    getCell (setCell grid r' c' v) r c = getCell grid r c := by
  by_cases hr : r = r'
  · subst hr
    by_cases hlt : r < grid.length
    · unfold getCell
      rw [setCell_row grid c' v hlt, getD_set_ne _ _ _ (fun he => h he.symm)]
    · unfold getCell
      rw [setCell_row_oob grid c' v (by omega)]
  · exact getCell_setCell_row_ne grid c c' v hr

theorem getCell_setCell_self (grid : List (List (Option Nat))) {r c : Nat}
    (v : Option Nat) (hr : r < grid.length) (hc : c < (grid.getD r []).length) :
    getCell (setCell grid r c v) r c = v := by
  unfold getCell
  rw [setCell_row grid c v hr, List.getD_eq_getElem?_getD,
    List.getElem?_set_self hc]; rfl

theorem fillStep_length (b : Board) (grid : List (List (Option Nat)))
    (pos : Pos) : (fillStep b grid pos).length = grid.length := by
  unfold fillStep
  cases b.occupant pos <;> simp [setCell]

theorem setCell_row_length (grid : List (List (Option Nat))) (r' c' : Nat)
    (v : Option Nat) (r : Nat) :
    ((setCell grid r' c' v).getD r []).length = (grid.getD r []).length := by
  by_cases hr : r = r'
  · subst hr
    by_cases hlt : r < grid.length
    · rw [setCell_row grid c' v hlt]; simp
    · rw [setCell_row_oob grid c' v (by omega)]
  · unfold setCell
    rw [getD_set_ne _ _ _ (fun he => hr he.symm)]

theorem fillStep_row_length (b : Board) (grid : List (List (Option Nat)))
    (pos : Pos) (r : Nat) :
    ((fillStep b grid pos).getD r []).length = (grid.getD r []).length := by
  unfold fillStep
  cases b.occupant pos
  · rfl
  · exact setCell_row_length grid pos.1 pos.2 _ r

theorem getCell_fillStep_ne (b : Board) (grid : List (List (Option Nat)))
    {r c : Nat} {pos : Pos} (h : (r, c) ≠ pos) :
    getCell (fillStep b grid pos) r c = getCell grid r c := by
  obtain ⟨e1, e2⟩ := pos
  unfold fillStep
  cases b.occupant (e1, e2) with
  | none => rfl
  | some q =>
    rcases eq_or_ne r e1 with hr | hr
    · exact getCell_setCell_col_ne grid _ (fun hcc => h (by rw [hr, hcc]))
    · exact getCell_setCell_row_ne grid c e2 _ hr

theorem fill_foldl_length (b : Board) :
    ∀ (L : List Pos) (grid : List (List (Option Nat))),
      (L.foldl (fillStep b) grid).length = grid.length
  | [], _ => rfl
  | a :: L, grid => by
    rw [List.foldl_cons, fill_foldl_length b L (fillStep b grid a),
      fillStep_length]

theorem fill_foldl_row_length (b : Board) :
    ∀ (L : List Pos) (grid : List (List (Option Nat))) (r : Nat),
      ((L.foldl (fillStep b) grid).getD r []).length = (grid.getD r []).length
  | [], _, _ => rfl
  | a :: L, grid, r => by
    rw [List.foldl_cons, fill_foldl_row_length b L (fillStep b grid a) r,
      fillStep_row_length]

theorem fill_foldl_not_mem (b : Board) :
    ∀ (L : List Pos) (grid : List (List (Option Nat))) (r c : Nat),
      (r, c) ∉ L →
      getCell (L.foldl (fillStep b) grid) r c = getCell grid r c
  | [], _, _, _, _ => rfl
  | a :: L, grid, r, c, h => by
    have hne : (r, c) ≠ a := fun he => h (he ▸ List.mem_cons_self a L)
    have hL : (r, c) ∉ L := fun hm => h (List.mem_cons_of_mem a hm)
    rw [List.foldl_cons, fill_foldl_not_mem b L (fillStep b grid a) r c hL,
      getCell_fillStep_ne b grid hne]

theorem fill_foldl_mem (b : Board) :
    ∀ (L : List Pos) (grid : List (List (Option Nat))) (r c : Nat),
      L.Nodup → (r, c) ∈ L → r < grid.length →
      c < (grid.getD r []).length →
      getCell (L.foldl (fillStep b) grid) r c =
        (match b.occupant (r, c) with
          | some q => some q.player.value
          | none => getCell grid r c)
  | [], _, _, _, _, hm, _, _ => absurd hm (List.not_mem_nil _)
  | a :: L, grid, r, c, hnd, hm, hr, hc => by
    obtain ⟨a1, a2⟩ := a
    rw [List.nodup_cons] at hnd
    rw [List.foldl_cons]
    rcases List.mem_cons.mp hm with he | hmL
    · obtain ⟨h1, h2⟩ := (Prod.mk.injEq _ _ _ _).mp he
      subst h1; subst h2
      rw [fill_foldl_not_mem b L (fillStep b grid (r, c)) r c hnd.1]
      unfold fillStep
      cases ho : b.occupant (r, c) with
      | none => rfl
      | some q => exact getCell_setCell_self grid _ hr hc
    · have hane : (r, c) ≠ (a1, a2) := fun he2 => hnd.1 (he2 ▸ hmL)
      rw [fill_foldl_mem b L (fillStep b grid (a1, a2)) r c hnd.2 hmL
        (by rw [fillStep_length]; exact hr)
        (by rw [fillStep_row_length]; exact hc)]
      cases ho : b.occupant (r, c) with
      | none => exact getCell_fillStep_ne b grid hane
      | some q => rfl

theorem emptyGrid_row {r : Nat} (h : r < 3) :
    emptyGrid.getD r [] = List.replicate 8 none := by
  rw [emptyGrid, getD_lt _ _ _ (by simpa using h), List.getElem_replicate]

theorem getCell_emptyGrid (r c : Nat) : getCell emptyGrid r c = none := by
  unfold getCell
  by_cases hr : r < 3
  · rw [emptyGrid_row hr]
    by_cases hc : c < 8
    · rw [getD_lt _ _ _ (by simpa using hc), List.getElem_replicate]
    · rw [List.getD_eq_getElem?_getD, List.getElem?_eq_none (by simpa using hc)]
      rfl
  · have hrow : emptyGrid.getD r [] = [] := by
      rw [List.getD_eq_getElem?_getD,
        List.getElem?_eq_none (by simp [emptyGrid]; omega)]
      rfl
    rw [hrow]
    rfl

/-! ## Claims about move legality at the path boundary -/

/-- **C3.** For an on-board piece at logical index `i`, a move of `steps` is
illegal whenever `i + steps` exceeds 14 (the path length), and is legal
unconditionally whenever `i + steps = 14` (exact landing scores). -/
theorem claim_C3_overshoot_exact_boundary (b : Board) (p : PieceId) (pos : Pos)
    (i steps : Nat)
    (hc : b.completed p = false) (hh : b.inHand p = false)
    (hp : b.posOf p = some pos) (hmem : pos ∈ getPlayerPath p.player)
    (hi : pathIndexOf p.player pos = i) :
    (14 < i + steps → isValidMove b p steps = some false) ∧
    (i + steps = 14 → isValidMove b p steps = some true) := by
  subst hi
  exact ⟨fun hgt => valid_of_overshoot hc hh hp hmem hgt,
         fun heq => valid_of_exact hc hh hp hmem heq⟩

/-- Witness for C3: on a fresh board with ONE's piece on the last shared
square `(1, 7)` (index 11), a roll of 3 is legal (scores) and a roll of 4 is
illegal (overshoot). -/
theorem claim_C3_witness :
    isValidMove boardShared p1a 3 = some true ∧
    isValidMove boardShared p1a 4 = some false :=
  ⟨(claim_C3_overshoot_exact_boundary boardShared p1a (1, 7) 11 3
      (by decide) (by decide) (by decide) (by decide) (by decide)).2 (by decide),
   (claim_C3_overshoot_exact_boundary boardShared p1a (1, 7) 11 4
      (by decide) (by decide) (by decide) (by decide) (by decide)).1 (by decide)⟩

/-! ## Claim about the executor re-validating -/

/-- **C10.** `move_piece` re-validates internally: when `is_valid_move`
returns `false`, calling `move_piece` directly returns `false` and the
whole board state is unchanged. -/
theorem claim_C10_executor_revalidates (b : Board) (p : PieceId) (steps : Nat)
    (h : isValidMove b p steps = some false) :
    movePiece b p steps = some (b, false) := by
  simp only [movePiece, h]

/-- Witness for C10: entering from hand with a roll of 0 is invalid on the
fresh board, and `move_piece` rejects it as a no-op. -/
theorem claim_C10_witness :
    movePiece initBoard p1a 0 = some (initBoard, false) :=
  claim_C10_executor_revalidates initBoard p1a 0 (by decide)

/-! ## Claims about the occupancy rules at the target square -/

/-- **C4.** A move whose destination is the shared rosette `(1, 3)` while an
opponent piece sits there is always illegal, whether the mover enters from
hand or advances on the board. -/
theorem claim_C4_shared_rosette_is_safe (b : Board) (p : PieceId) (steps : Nat)
    (q : PieceId)
    (hc : b.completed p = false)
    (ht : moveTarget b p steps = some (1, 3))
    (hq : b.occupant (1, 3) = some q)
    (hqp : q.player ≠ p.player) :
    isValidMove b p steps = some false := by
  have hocc : occCheck b p (1, 3) = false := by
    simp [occCheck, hq, isRosette, rosettePositions]
  unfold moveTarget at ht
  by_cases hh : b.inHand p = true
  · simp only [hh, if_true] at ht
    by_cases hs : steps = 0
    · simp [hs] at ht
    · simp only [hs, if_false, reduceIte] at ht
      simp [isValidMove, hc, hh, hs, ht, hocc]
  · have hh' : b.inHand p = false := by
      simpa using hh
    simp only [hh', Bool.false_eq_true, if_false, reduceIte] at ht
    cases hp : b.posOf p with
    | none => simp [hp] at ht
    | some pos =>
      simp only [hp] at ht
      by_cases hmem : pos ∈ getPlayerPath p.player
      · simp only [hmem, if_true, reduceIte] at ht
        by_cases hlt : pathIndexOf p.player pos + steps < (getPlayerPath p.player).length
        · simp only [hlt, if_true, reduceIte] at ht
          have hD := getD_of_getq (0, 0) ht
          simp only [isValidMove, hc, hh', hp, hmem, Bool.false_eq_true,
            if_false, if_true, reduceIte]
          rw [if_neg (by omega), if_neg (by omega), hD, hocc]
        · simp [hlt] at ht
      · simp [hmem] at ht

/-- Witness for C4: ONE's piece at `(1, 0)` (index 4) rolling 3 would land
on the shared rosette occupied by TWO; the move is illegal. -/
theorem claim_C4_witness :
    isValidMove boardSafe p1a 3 = some false :=
  claim_C4_shared_rosette_is_safe boardSafe p1a 3 p2a
    (by decide) (by decide) (by decide) (by decide)

/-- **C5.** A move onto a shared (middle-row) non-rosette square occupied by
an opponent piece is legal, and executing it captures: the opponent piece
loses its square and returns to its owner's hand, while the mover takes the
square. -/
theorem claim_C5_capture_on_shared (b : Board) (p : PieceId) (steps : Nat)
    (q : PieceId) (t : Pos)
    (hWF : boardWF b = true)
    (hc : b.completed p = false)
    (ht : moveTarget b p steps = some t)
    (hrow : t.1 = 1)
    (hros : isRosette t = false)
    (hq : b.occupant t = some q)
    (hqp : q.player ≠ p.player) :
    isValidMove b p steps = some true ∧
    (movePiece b p steps).isSome = true ∧
    (movePieceRes b p steps).1.posOf q = none ∧
    (movePieceRes b p steps).1.inHand q = true ∧
    (movePieceRes b p steps).1.occupant t = some p ∧
    (movePieceRes b p steps).1.posOf p = some t := by
  have hqp' : q ≠ p := fun he => hqp (he ▸ rfl)
  have hpq' : p ≠ q := fun he => hqp' he.symm
  have hocc : occCheck b p t = true := by
    simp [occCheck, hq, hrow, hqp, hros]
  unfold moveTarget at ht
  by_cases hh : b.inHand p = true
  · -- entering from hand
    obtain ⟨hpn, -⟩ := wf_inHand_facts hWF p hh
    simp only [hh, if_true] at ht
    by_cases hs : steps = 0
    · simp [hs] at ht
    · simp only [hs, if_false, reduceIte] at ht
      have hv : isValidMove b p steps = some true := by
        simp [isValidMove, hc, hh, hs, ht, hocc]
      have hlt : steps - 1 < (getPlayerPath p.player).length := lt_of_getq ht
      have hne : ¬(steps - 1 = (getPlayerPath p.player).length) := by omega
      have hD := getD_of_getq (0, 0) ht
      refine ⟨hv, ?_⟩
      simp only [movePieceRes, movePiece, hv, hpn, hne, if_false, reduceIte, hD]
      simp [updFn, hq, hqp', hpq']
  · -- advancing on the board
    have hh' : b.inHand p = false := by simpa using hh
    simp only [hh', Bool.false_eq_true, if_false, reduceIte] at ht
    cases hp : b.posOf p with
    | none => simp [hp] at ht
    | some pos =>
      simp only [hp] at ht
      by_cases hmem : pos ∈ getPlayerPath p.player
      · simp only [hmem, if_true, reduceIte] at ht
        by_cases hlt : pathIndexOf p.player pos + steps < (getPlayerPath p.player).length
        · simp only [hlt, if_true, reduceIte] at ht
          have hD := getD_of_getq (0, 0) ht
          have hv : isValidMove b p steps = some true := by
            simp only [isValidMove, hc, hh', hp, hmem, Bool.false_eq_true,
              if_false, if_true, reduceIte]
            rw [if_neg (by omega), if_neg (by omega), hD, hocc]
          have hop : b.occupant pos = some p := (wf_posOf_occ hWF hp).1
          have htpos : t ≠ pos := by
            intro he
            rw [he, hop] at hq
            exact hpq' (Option.some.injEq .. ▸ hq.symm ▸ rfl)
          have hne : ¬(pathIndexOf p.player pos + steps =
              (getPlayerPath p.player).length) := by omega
          refine ⟨hv, ?_⟩
          simp only [movePieceRes, movePiece, hv, hp, hne, if_false, reduceIte, hD]
          simp [updFn, hq, hqp', hpq', htpos]
        · simp [hlt] at ht
      · simp [hmem] at ht

/-- Witness for C5: ONE's piece at `(1, 0)` rolling 2 lands on TWO's piece
at the shared non-rosette `(1, 2)`: legal, TWO's piece is captured back to
hand, ONE's piece takes the square. -/
theorem claim_C5_witness :
    isValidMove boardCapture p1a 2 = some true ∧
    (movePiece boardCapture p1a 2).isSome = true ∧
    (movePieceRes boardCapture p1a 2).1.posOf p2a = none ∧
    (movePieceRes boardCapture p1a 2).1.inHand p2a = true ∧
    (movePieceRes boardCapture p1a 2).1.occupant (1, 2) = some p1a ∧
    (movePieceRes boardCapture p1a 2).1.posOf p1a = some (1, 2) :=
  claim_C5_capture_on_shared boardCapture p1a 2 p2a (1, 2)
    (by decide) (by decide) (by decide) (by decide) (by decide) (by decide)
    (by decide)

/-- **C6.** An on-board move landing exactly on the scoring slot
(`current index + steps = 14`) executes: the piece is marked completed,
loses its position, and `move_piece` returns `bonus_turn = false` — even
when the square it vacated was a rosette; a move going past the slot is
illegal. -/
theorem claim_C6_exact_scoring_no_bonus (b : Board) (p : PieceId) (pos : Pos)
    (steps : Nat)
    (hc : b.completed p = false) (hh : b.inHand p = false)
    (hp : b.posOf p = some pos) (hmem : pos ∈ getPlayerPath p.player)
    (hi : pathIndexOf p.player pos + steps = 14) :
    movePiece b p steps = some ((movePieceRes b p steps).1, false) ∧
    (movePieceRes b p steps).1.completed p = true ∧
    (movePieceRes b p steps).1.posOf p = none ∧
    (∀ steps2 : Nat, 14 < pathIndexOf p.player pos + steps2 →
      isValidMove b p steps2 = some false) := by
  have hv : isValidMove b p steps = some true := valid_of_exact hc hh hp hmem hi
  refine ⟨?_, ?_, ?_, fun s2 hgt => valid_of_overshoot hc hh hp hmem hgt⟩ <;>
    simp [movePieceRes, movePiece, hv, hp, hi, path_length, updFn]

/-- Witness for C6: ONE's piece on the end-row rosette `(2, 6)` (index 13)
scores with a roll of 1 — completed, off the board, no bonus turn — while a
roll of 2 is illegal. -/
theorem claim_C6_witness :
    movePiece boardEndRosette p1a 1 =
      some ((movePieceRes boardEndRosette p1a 1).1, false) ∧
    (movePieceRes boardEndRosette p1a 1).1.completed p1a = true ∧
    (movePieceRes boardEndRosette p1a 1).1.posOf p1a = none ∧
    isValidMove boardEndRosette p1a 2 = some false := by
  have h := claim_C6_exact_scoring_no_bonus boardEndRosette p1a (2, 6) 1
    (by decide) (by decide) (by decide) (by decide) (by decide)
  exact ⟨h.1, h.2.1, h.2.2.1, h.2.2.2 2 (by decide)⟩

/-! ## Claims about the turn controller -/

/-- **C7.** When `make_move` succeeds: if the mover's 7 pieces are then all
completed, the controller transitions to game over with the current player
as winner and reports no bonus turn; otherwise the game-over state is
untouched and the executor's bonus-turn boolean is returned unmodified. -/
theorem claim_C7_victory_transition (g : Game) (p : PieceId) (g2 : Game)
    (bt : Bool) (h : makeMove g p = (g2, Except.ok bt)) :
    (allCompleted g2.board g.currentPlayer = true →
      g2.gameOver = true ∧ g2.winner = some g.currentPlayer ∧ bt = false) ∧
    (allCompleted g2.board g.currentPlayer = false →
      g2.gameOver = g.gameOver ∧ g2.winner = g.winner ∧
        movePiece g.board p g.diceResult = some (g2.board, bt)) := by
  unfold makeMove at h
  by_cases h1 : p.player ≠ g.currentPlayer
  · simp [h1] at h
  · simp only [h1, if_false, reduceIte] at h
    by_cases h2 : p ∉ getValidMoves g
    · simp [h2] at h
    · simp only [h2, if_false, reduceIte] at h
      cases hmv : movePiece g.board p g.diceResult with
      | none => simp [hmv] at h
      | some pr =>
        obtain ⟨b2, ros⟩ := pr
        simp only [hmv] at h
        by_cases hw : allCompleted b2 g.currentPlayer = true
        · rw [if_pos hw] at h
          obtain ⟨rfl, hsnd⟩ := (Prod.mk.injEq _ _ _ _).mp h
          injection hsnd with hbt
          subst hbt
          refine ⟨fun _ => ⟨rfl, rfl, rfl⟩, fun hcon => ?_⟩
          simp only [hw] at hcon
          cases hcon
        · rw [if_neg hw] at h
          obtain ⟨rfl, hsnd⟩ := (Prod.mk.injEq _ _ _ _).mp h
          injection hsnd with hbt
          subst hbt
          refine ⟨fun hcon => ?_, fun _ => ⟨rfl, rfl, rfl⟩⟩
          exact absurd hcon (by simpa using hw)

/-- Witness for C7: on a fresh game with a roll of 4, moving ONE's first
piece succeeds without victory: game-over stays false, no winner, and the
returned boolean is the executor's rosette signal (true: the piece enters
on the start rosette `(2, 0)`). -/
theorem claim_C7_witness :
    (makeMove gReady p1a).1.gameOver = false ∧
    (makeMove gReady p1a).1.winner = none ∧
    okBoolD (makeMove gReady p1a).2 = true ∧
    movePiece gReady.board p1a gReady.diceResult =
      some ((makeMove gReady p1a).1.board, okBoolD (makeMove gReady p1a).2) := by
  have h := claim_C7_victory_transition gReady p1a (makeMove gReady p1a).1
    (okBoolD (makeMove gReady p1a).2) rfl
  have h2 := h.2 (by decide)
  exact ⟨h2.1.trans rfl, h2.2.1.trans rfl, by decide, h2.2.2⟩

/-- **C8.** A `make_move` call rejected with an error leaves the whole
state — board occupancy, piece locations, hand pools, current player, dice,
game-over flag and winner — unchanged: both `raise` paths run before any
mutation. -/
theorem claim_C8_rejected_move_is_noop (g : Game) (p : PieceId)
    (h : isErrB (makeMove g p).2 = true) : (makeMove g p).1 = g := by
  unfold makeMove at h ⊢
  by_cases h1 : p.player ≠ g.currentPlayer
  · simp [h1]
  · simp only [h1, if_false, reduceIte] at h ⊢
    by_cases h2 : p ∉ getValidMoves g
    · simp [h2]
    · simp only [h2, if_false, reduceIte] at h ⊢
      cases hmv : movePiece g.board p g.diceResult with
      | none => simp [hmv]
      | some pr =>
        obtain ⟨b2, ros⟩ := pr
        simp only [hmv] at h ⊢
        by_cases hw : allCompleted b2 g.currentPlayer = true
        · simp [hw, isErrB] at h
        · simp [hw, isErrB] at h

/-- Witness for C8: on a fresh game the dice are 0, so moving ONE's first
piece is rejected (`Invalid move!`), and the state is returned unchanged. -/
theorem claim_C8_witness : (makeMove initGame p1a).1 = initGame :=
  claim_C8_rejected_move_is_noop initGame p1a (by decide)

/-- **C1 (amended).** Once the game is over (winner recorded, every piece
of the current player completed), every further `make_move` call fails —
with `Not your piece!` or `Invalid move!`, the code having no
`GameAlreadyOver` error — and returns the state unchanged; `roll_dice`
however performs no game-over check: it succeeds and overwrites
`dice_result` with the new sum. -/
theorem claim_C1_after_game_over (g : Game)
    (hover : g.gameOver = true)
    (hwin : g.winner = some g.currentPlayer)
    (hdone : ∀ q ∈ piecesOf g.currentPlayer, g.board.completed q = true) :
    (∀ p : PieceId, (makeMove g p).1 = g ∧ isErrB (makeMove g p).2 = true) ∧
    (∀ d1 d2 d3 d4 : Bool,
      (rollDice g d1 d2 d3 d4).1 =
        { g with diceResult := d1.toNat + d2.toNat + d3.toNat + d4.toNat } ∧
      (rollDice g d1 d2 d3 d4).2 =
        d1.toNat + d2.toNat + d3.toNat + d4.toNat) := by
  refine ⟨fun p => ?_, fun d1 d2 d3 d4 => ⟨rfl, rfl⟩⟩
  by_cases hp : p.player = g.currentPlayer
  · have hnotmem : p ∉ getValidMoves g := by
      unfold getValidMoves
      by_cases hd : g.diceResult = 0
      · simp [hd]
      · simp only [hd, if_false, reduceIte]
        intro hmem
        rw [List.mem_filter] at hmem
        have hcomp : g.board.completed p = true := hdone p (hp ▸ mem_piecesOf p)
        have hval := valid_of_completed hcomp g.diceResult
        simp [hval, hcomp] at hmem
    simp [makeMove, hp, hnotmem, isErrB]
  · simp [makeMove, hp, isErrB]

/-- Witness for C1's amended statement, at the finished game `gWon`. -/
theorem claim_C1_witness :
    (makeMove gWon p1a).1 = gWon ∧ isErrB (makeMove gWon p1a).2 = true ∧
    (rollDice gWon true true false false).1 = { gWon with diceResult := 2 } := by
  have h := claim_C1_after_game_over gWon rfl rfl (by decide)
  exact ⟨(h.1 p1a).1, (h.1 p1a).2, (h.2 true true false false).1⟩

/-- Counterexample for C1 as frozen: in the game-over state `gWon`
(dice showing 3), `roll_dice` does not fail with any game-over error — it
succeeds, returns 0 and overwrites the stored dice value, mutating the
controller state after the winner was decided. -/
theorem claim_C1_counterexample :
    gWon.gameOver = true ∧ gWon.diceResult = 3 ∧
    (rollDice gWon false false false false).2 = 0 ∧
    (rollDice gWon false false false false).1.diceResult = 0 :=
  ⟨rfl, rfl, rfl, rfl⟩

/-! ## Claim about the piece-location partition invariant -/

/-- **C2.** Each player's 7 pieces are partitioned by the three location
buckets {in-hand, on-square, completed}: the invariant (with square↔piece
consistency) holds of the freshly constructed board, is preserved by every
`move_piece` execution — ordinary movement, capture and scoring included —
and makes the three per-player bucket counts sum to 7. -/
theorem claim_C2_partition_invariant :
    boardWF initBoard = true ∧
    (∀ (b : Board) (p : PieceId) (steps : Nat) (b2 : Board) (ros : Bool),
      boardWF b = true → movePiece b p steps = some (b2, ros) →
      boardWF b2 = true) ∧
    (∀ (b : Board) (pl : Player), boardWF b = true →
      inHandCount b pl + onBoardCount b pl + completedCount b pl = 7) := by
  refine ⟨by decide, ?_, ?_⟩
  · intro b p steps b2 ros hWF hmv
    cases hv : isValidMove b p steps with
    | none => unfold movePiece at hmv; rw [hv] at hmv; cases hmv
    | some bv =>
      cases bv with
      | false =>
        unfold movePiece at hmv
        rw [hv] at hmv
        obtain ⟨hb, -⟩ := (Prod.mk.injEq _ _ _ _).mp (Option.some.inj hmv)
        exact hb ▸ hWF
      | true =>
        obtain ⟨hcf, hcase⟩ := validTrue_cases hv
        rcases hcase with ⟨hh, hs, t, hg, hocc⟩ | ⟨hh, pos, hp, hmem, hrest⟩
        · -- entering from hand
          obtain ⟨hpn, -⟩ := wf_inHand_facts hWF p hh
          have hlt : steps - 1 < (getPlayerPath p.player).length := lt_of_getq hg
          have hne14 : ¬(steps - 1 = (getPlayerPath p.player).length) := by
            omega
          have hD := getD_of_getq (0, 0) hg
          have htb : t ∈ boardPositions :=
            path_subset_board p.player t (mem_of_getq hg)
          cases hqt : b.occupant t with
          | some cap =>
            have hcapp : cap.player ≠ p.player := by
              by_cases h1 : t.1 = 1
              · simp only [occCheck, hqt, h1, if_true, reduceIte,
                  Bool.and_eq_true, decide_eq_true_eq, Bool.not_eq_true'] at hocc
                exact hocc.1
              · simp [occCheck, hqt, h1] at hocc
            have hcp : cap ≠ p := fun he => hcapp (he ▸ rfl)
            have hpc : p ≠ cap := fun he => hcp he.symm
            have hposcap : b.posOf cap = some t := wf_occ_posOf hWF htb hqt
            obtain ⟨hihc, hcc⟩ := wf_onboard_facts hWF cap t hposcap
            have hstep : movePiece b p steps =
                some (⟨updFn b.occupant t (some p),
                       updFn (updFn b.posOf cap none) p (some t),
                       b.completed,
                       updFn (updFn b.inHand p false) cap true⟩,
                  isRosette t) := by
              unfold movePiece
              rw [hv]
              simp only [hpn, hD, hne14, if_false, reduceIte, hqt]
            rw [hstep] at hmv
            obtain ⟨hb, -⟩ := (Prod.mk.injEq _ _ _ _).mp (Option.some.inj hmv)
            rw [← hb]
            refine boardWF_intro _ ?_ ?_ ?_
            · intro q
              by_cases hq1 : q = p
              · subst hq1
                simp [locCount, updFn, hpc, hcf]
              · by_cases hq2 : q = cap
                · subst hq2
                  simp [locCount, updFn, hq1, hcc]
                · simpa [locCount, updFn, hq1, hq2] using (wf_parts b hWF).1 q
            · intro pos2 hpos2 q hoq
              dsimp only at hoq ⊢
              by_cases hpt : pos2 = t
              · subst hpt
                rw [updFn_eq] at hoq
                obtain rfl := Option.some.inj hoq
                rw [updFn_eq]
              · rw [updFn_ne _ _ _ hpt] at hoq
                have hq := wf_occ_posOf hWF hpos2 hoq
                have hqp : q ≠ p := by
                  intro he
                  rw [he, hpn] at hq
                  cases hq
                have hqc : q ≠ cap := by
                  intro he
                  rw [he] at hq
                  exact hpt (Option.some.inj (hq.symm.trans hposcap))
                rw [updFn_ne _ _ _ hqp, updFn_ne _ _ _ hqc]
                exact hq
            · intro q pos2 hq2
              dsimp only at hq2 ⊢
              by_cases hq1 : q = p
              · subst hq1
                rw [updFn_eq] at hq2
                obtain rfl := Option.some.inj hq2
                exact ⟨updFn_eq _ _ _, htb⟩
              · by_cases hq3 : q = cap
                · subst hq3
                  rw [updFn_ne _ _ _ hq1, updFn_eq] at hq2
                  cases hq2
                · rw [updFn_ne _ _ _ hq1, updFn_ne _ _ _ hq3] at hq2
                  obtain ⟨ho, hmem2⟩ := wf_posOf_occ hWF hq2
                  have hp2t : pos2 ≠ t := by
                    intro he
                    rw [he, hqt] at ho
                    exact hq3 (Option.some.inj ho).symm
                  refine ⟨?_, hmem2⟩
                  rw [updFn_ne _ _ _ hp2t]
                  exact ho
          | none =>
            have hstep : movePiece b p steps =
                some (⟨updFn b.occupant t (some p),
                       updFn b.posOf p (some t),
                       b.completed,
                       updFn b.inHand p false⟩,
                  isRosette t) := by
              unfold movePiece
              rw [hv]
              simp only [hpn, hD, hne14, if_false, reduceIte, hqt]
            rw [hstep] at hmv
            obtain ⟨hb, -⟩ := (Prod.mk.injEq _ _ _ _).mp (Option.some.inj hmv)
            rw [← hb]
            refine boardWF_intro _ ?_ ?_ ?_
            · intro q
              by_cases hq1 : q = p
              · subst hq1
                simp [locCount, updFn, hcf]
              · simpa [locCount, updFn, hq1] using (wf_parts b hWF).1 q
            · intro pos2 hpos2 q hoq
              dsimp only at hoq ⊢
              by_cases hpt : pos2 = t
              · subst hpt
                rw [updFn_eq] at hoq
                obtain rfl := Option.some.inj hoq
                rw [updFn_eq]
              · rw [updFn_ne _ _ _ hpt] at hoq
                have hq := wf_occ_posOf hWF hpos2 hoq
                have hqp : q ≠ p := by
                  intro he
                  rw [he, hpn] at hq
                  cases hq
                rw [updFn_ne _ _ _ hqp]
                exact hq
            · intro q pos2 hq2
              dsimp only at hq2 ⊢
              by_cases hq1 : q = p
              · subst hq1
                rw [updFn_eq] at hq2
                obtain rfl := Option.some.inj hq2
                exact ⟨updFn_eq _ _ _, htb⟩
              · rw [updFn_ne _ _ _ hq1] at hq2
                obtain ⟨ho, hmem2⟩ := wf_posOf_occ hWF hq2
                have hp2t : pos2 ≠ t := by
                  intro he
                  rw [he, hqt] at ho
                  cases ho
                refine ⟨?_, hmem2⟩
                rw [updFn_ne _ _ _ hp2t]
                exact ho
        · -- advancing on the board
          obtain ⟨hop, hpb⟩ := wf_posOf_occ hWF hp
          rcases hrest with h14 | ⟨hlt14, hocc⟩
          · -- exact landing: scoring
            have hiseq : pathIndexOf p.player pos + steps =
                (getPlayerPath p.player).length := by
              rw [path_length]; exact h14
            have hstep : movePiece b p steps =
                some (⟨updFn b.occupant pos none,
                       updFn b.posOf p none,
                       updFn b.completed p true,
                       b.inHand⟩, false) := by
              unfold movePiece
              rw [hv]
              simp only [hp, hiseq, if_true, reduceIte]
            rw [hstep] at hmv
            obtain ⟨hb, -⟩ := (Prod.mk.injEq _ _ _ _).mp (Option.some.inj hmv)
            rw [← hb]
            refine boardWF_intro _ ?_ ?_ ?_
            · intro q
              by_cases hq1 : q = p
              · subst hq1
                simp [locCount, updFn, hh]
              · simpa [locCount, updFn, hq1] using (wf_parts b hWF).1 q
            · intro pos2 hpos2 q hoq
              dsimp only at hoq ⊢
              by_cases hpt : pos2 = pos
              · subst hpt
                rw [updFn_eq] at hoq
                cases hoq
              · rw [updFn_ne _ _ _ hpt] at hoq
                have hq := wf_occ_posOf hWF hpos2 hoq
                have hqp : q ≠ p := by
                  intro he
                  rw [he, hp] at hq
                  exact hpt (Option.some.inj hq).symm
                rw [updFn_ne _ _ _ hqp]
                exact hq
            · intro q pos2 hq2
              dsimp only at hq2 ⊢
              by_cases hq1 : q = p
              · subst hq1
                rw [updFn_eq] at hq2
                cases hq2
              · rw [updFn_ne _ _ _ hq1] at hq2
                obtain ⟨ho, hmem2⟩ := wf_posOf_occ hWF hq2
                have hp2 : pos2 ≠ pos := by
                  intro he
                  rw [he, hop] at ho
                  exact hq1 (Option.some.inj ho).symm
                refine ⟨?_, hmem2⟩
                rw [updFn_ne _ _ _ hp2]
                exact ho
          · -- ordinary advance, possibly capturing
            set t : Pos := (getPlayerPath p.player).getD
              (pathIndexOf p.player pos + steps) (0, 0) with ht
            have hnlt : pathIndexOf p.player pos + steps <
                (getPlayerPath p.player).length := by
              rw [path_length]; exact hlt14
            have hne : ¬(pathIndexOf p.player pos + steps =
                (getPlayerPath p.player).length) := by
              rw [path_length]; omega
            have htmem : t ∈ getPlayerPath p.player := getD_mem (0, 0) hnlt
            have htb : t ∈ boardPositions := path_subset_board p.player t htmem
            have htp : t ≠ pos := by
              intro he
              rw [he] at hocc
              simp [occCheck, hop] at hocc
            cases hqt : b.occupant t with
            | some cap =>
              have hposcap : b.posOf cap = some t := wf_occ_posOf hWF htb hqt
              obtain ⟨hihc, hcc⟩ := wf_onboard_facts hWF cap t hposcap
              have hcp : cap ≠ p := by
                intro he
                rw [he] at hposcap
                exact htp (Option.some.inj (hposcap.symm.trans hp))
              have hpc : p ≠ cap := fun he => hcp he.symm
              have hstep : movePiece b p steps =
                  some (⟨updFn (updFn b.occupant pos none) t (some p),
                         updFn (updFn b.posOf cap none) p (some t),
                         b.completed,
                         updFn b.inHand cap true⟩,
                    isRosette t) := by
                unfold movePiece
                rw [hv]
                simp only [hp, hne, if_false, reduceIte]
                rw [← ht, updFn_ne _ _ _ htp, hqt]
              rw [hstep] at hmv
              obtain ⟨hb, -⟩ := (Prod.mk.injEq _ _ _ _).mp (Option.some.inj hmv)
              rw [← hb]
              refine boardWF_intro _ ?_ ?_ ?_
              · intro q
                by_cases hq1 : q = p
                · subst hq1
                  simp [locCount, updFn, hpc, hh, hcf]
                · by_cases hq2 : q = cap
                  · subst hq2
                    simp [locCount, updFn, hq1, hcc]
                  · simpa [locCount, updFn, hq1, hq2] using (wf_parts b hWF).1 q
              · intro pos2 hpos2 q hoq
                dsimp only at hoq ⊢
                by_cases hpt2 : pos2 = t
                · subst hpt2
                  rw [updFn_eq] at hoq
                  obtain rfl := Option.some.inj hoq
                  rw [updFn_eq]
                · rw [updFn_ne _ _ _ hpt2] at hoq
                  by_cases hpt3 : pos2 = pos
                  · subst hpt3
                    rw [updFn_eq] at hoq
                    cases hoq
                  · rw [updFn_ne _ _ _ hpt3] at hoq
                    have hq := wf_occ_posOf hWF hpos2 hoq
                    have hqp : q ≠ p := by
                      intro he
                      rw [he, hp] at hq
                      exact hpt3 (Option.some.inj hq).symm
                    have hqc : q ≠ cap := by
                      intro he
                      rw [he] at hq
                      exact hpt2 (Option.some.inj (hq.symm.trans hposcap))
                    rw [updFn_ne _ _ _ hqp, updFn_ne _ _ _ hqc]
                    exact hq
              · intro q pos2 hq2
                dsimp only at hq2 ⊢
                by_cases hq1 : q = p
                · subst hq1
                  rw [updFn_eq] at hq2
                  obtain rfl := Option.some.inj hq2
                  exact ⟨updFn_eq _ _ _, htb⟩
                · by_cases hq3 : q = cap
                  · subst hq3
                    rw [updFn_ne _ _ _ hq1, updFn_eq] at hq2
                    cases hq2
                  · rw [updFn_ne _ _ _ hq1, updFn_ne _ _ _ hq3] at hq2
                    obtain ⟨ho, hmem2⟩ := wf_posOf_occ hWF hq2
                    have hp2t : pos2 ≠ t := by
                      intro he
                      rw [he, hqt] at ho
                      exact hq3 (Option.some.inj ho).symm
                    have hp2p : pos2 ≠ pos := by
                      intro he
                      rw [he, hop] at ho
                      exact hq1 (Option.some.inj ho).symm
                    refine ⟨?_, hmem2⟩
                    rw [updFn_ne _ _ _ hp2t, updFn_ne _ _ _ hp2p]
                    exact ho
            | none =>
              have hstep : movePiece b p steps =
                  some (⟨updFn (updFn b.occupant pos none) t (some p),
                         updFn b.posOf p (some t),
                         b.completed,
                         b.inHand⟩,
                    isRosette t) := by
                unfold movePiece
                rw [hv]
                simp only [hp, hne, if_false, reduceIte]
                rw [← ht, updFn_ne _ _ _ htp, hqt]
              rw [hstep] at hmv
              obtain ⟨hb, -⟩ := (Prod.mk.injEq _ _ _ _).mp (Option.some.inj hmv)
              rw [← hb]
              refine boardWF_intro _ ?_ ?_ ?_
              · intro q
                by_cases hq1 : q = p
                · subst hq1
                  simp [locCount, updFn, hh, hcf]
                · simpa [locCount, updFn, hq1] using (wf_parts b hWF).1 q
              · intro pos2 hpos2 q hoq
                dsimp only at hoq ⊢
                by_cases hpt2 : pos2 = t
                · subst hpt2
                  rw [updFn_eq] at hoq
                  obtain rfl := Option.some.inj hoq
                  rw [updFn_eq]
                · rw [updFn_ne _ _ _ hpt2] at hoq
                  by_cases hpt3 : pos2 = pos
                  · subst hpt3
                    rw [updFn_eq] at hoq
                    cases hoq
                  · rw [updFn_ne _ _ _ hpt3] at hoq
                    have hq := wf_occ_posOf hWF hpos2 hoq
                    have hqp : q ≠ p := by
                      intro he
                      rw [he, hp] at hq
                      exact hpt3 (Option.some.inj hq).symm
                    rw [updFn_ne _ _ _ hqp]
                    exact hq
              · intro q pos2 hq2
                dsimp only at hq2 ⊢
                by_cases hq1 : q = p
                · subst hq1
                  rw [updFn_eq] at hq2
                  obtain rfl := Option.some.inj hq2
                  exact ⟨updFn_eq _ _ _, htb⟩
                · rw [updFn_ne _ _ _ hq1] at hq2
                  obtain ⟨ho, hmem2⟩ := wf_posOf_occ hWF hq2
                  have hp2t : pos2 ≠ t := by
                    intro he
                    rw [he, hqt] at ho
                    cases ho
                  have hp2p : pos2 ≠ pos := by
                    intro he
                    rw [he, hop] at ho
                    exact hq1 (Option.some.inj ho).symm
                  refine ⟨?_, hmem2⟩
                  rw [updFn_ne _ _ _ hp2t, updFn_ne _ _ _ hp2p]
                  exact ho
  · intro b pl hWF
    have hpt : ∀ q ∈ piecesOf pl,
        (if b.inHand q then 1 else 0) + (if (b.posOf q).isSome then 1 else 0) +
          (if b.completed q then 1 else 0) = 1 :=
      fun q _ => (wf_parts b hWF).1 q
    have hcount := countP_three (fun q => b.inHand q)
      (fun q => (b.posOf q).isSome) (fun q => b.completed q) (piecesOf pl) hpt
    simpa [inHandCount, onBoardCount, completedCount, piecesOf] using hcount

/-- Witness for C2: after ONE enters a piece with a roll of 4 on the fresh
board, well-formedness still holds, and the fresh board's bucket counts sum
to 7. -/
theorem claim_C2_witness :
    boardWF (movePieceRes initBoard p1a 4).1 = true ∧
    inHandCount initBoard Player.one + onBoardCount initBoard Player.one +
      completedCount initBoard Player.one = 7 := by
  have h := claim_C2_partition_invariant
  exact ⟨h.2.1 initBoard p1a 4 (movePieceRes initBoard p1a 4).1
      (movePieceRes initBoard p1a 4).2 h.1 rfl,
    h.2.2 initBoard Player.one h.1⟩

/-! ## Claim about the snapshot -/

/-- **C9.** For every game state the snapshot record carries the current
player, dice result, game-over flag and winner, a 3×8 occupant grid whose
cells are empty off-board and away from pieces and otherwise hold the
owning player's id, and the per-player in-hand and completed counts. -/
theorem claim_C9_snapshot_shape (g : Game) :
    (serializeGameState g).currentPlayer = g.currentPlayer.value ∧
    (serializeGameState g).diceResult = g.diceResult ∧
    (serializeGameState g).gameOver = g.gameOver ∧
    (serializeGameState g).winner = g.winner.map Player.value ∧
    (serializeGameState g).boardGrid.length = 3 ∧
    (∀ r : Fin 3, ((serializeGameState g).boardGrid.getD r []).length = 8) ∧
    (∀ r : Fin 3, ∀ c : Fin 8,
      getCell (serializeGameState g).boardGrid r c =
        if ((r : Nat), (c : Nat)) ∈ boardPositions then
          (g.board.occupant (r, c)).map fun q => q.player.value
        else none) ∧
    (serializeGameState g).p1InHand = inHandCount g.board Player.one ∧
    (serializeGameState g).p2InHand = inHandCount g.board Player.two ∧
    (serializeGameState g).p1Completed = completedCount g.board Player.one ∧
    (serializeGameState g).p2Completed = completedCount g.board Player.two := by
  refine ⟨rfl, rfl, rfl, rfl, ?_, ?_, ?_, rfl, rfl, rfl, rfl⟩
  · show (fillBoardGrid g.board).length = 3
    rw [fillBoardGrid, fill_foldl_length]
    rfl
  · intro r
    show ((fillBoardGrid g.board).getD r []).length = 8
    rw [fillBoardGrid, fill_foldl_row_length, emptyGrid_row r.isLt]
    rfl
  · intro r c
    by_cases hmem : ((r : Nat), (c : Nat)) ∈ boardPositions
    · rw [if_pos hmem]
      show getCell (fillBoardGrid g.board) r c = _
      rw [fillBoardGrid,
        fill_foldl_mem g.board boardPositions emptyGrid r c (by decide) hmem
          (by rw [show emptyGrid.length = 3 from rfl]; exact r.isLt)
          (by rw [emptyGrid_row r.isLt, List.length_replicate]; exact c.isLt)]
      cases ho : g.board.occupant (r, c) with
      | none => rw [getCell_emptyGrid]; rfl
      | some q => rfl
    · rw [if_neg hmem]
      show getCell (fillBoardGrid g.board) r c = none
      rw [fillBoardGrid, fill_foldl_not_mem g.board boardPositions emptyGrid r c
        hmem, getCell_emptyGrid]

end Ur
